import Mathlib

/-!
Verification of `sort-photos.py` (z5tron/sort-photos).

Strings from the Python program are modelled as `List Char`; file-system
facts (EXIF tags, container probe results, modification times, the set of
existing paths) are passed explicitly as parameters.  Python exceptions are
modelled with `Except PyExc`.  Every definition is translated from the
source file; line numbers in comments refer to `sort-photos.py`.
-/

/-- Python exceptions raised (or raisable) by the translated code. -/
inductive PyExc where
  | valueError
  | nameError
  | typeError
  | badExifTimestamp
  | missingExifTimestamp
  | probeError
deriving DecidableEq

/-- `datetime.datetime` restricted to the fields the program uses. -/
structure DateTime where
  year : Nat
  month : Nat
  day : Nat
  hour : Nat
  minute : Nat
  second : Nat
deriving DecidableEq

/-! ### Character classes (ASCII, as used by the regexes in the source) -/

/-- Characters kept by `re.sub("[^0-9]", "", s)`. -/
def isDigitChar (c : Char) : Bool :=
  decide (48 ≤ c.toNat ∧ c.toNat ≤ 57)

/-- Characters kept by `re.sub("[^A-Za-z0-9]", "", s)`. -/
def isAlnumChar (c : Char) : Bool :=
  decide ((65 ≤ c.toNat ∧ c.toNat ≤ 90) ∨ (97 ≤ c.toNat ∧ c.toNat ≤ 122) ∨
    (48 ≤ c.toNat ∧ c.toNat ≤ 57))

/-- ASCII lower-casing of one character, as `str.lower` acts on the
extensions appearing in the program (all of which are ASCII). -/
def lowerChar (c : Char) : Char :=
  if 65 ≤ c.toNat ∧ c.toNat ≤ 90 then Char.ofNat (c.toNat + 32) else c

/-- `str.lower` on an ASCII string. -/
def lowerList (s : List Char) : List Char :=
  s.map lowerChar

/-! ### Decimal rendering, `'%i' % n` -/

/-- The decimal digit `d` as a character (`0 ≤ d ≤ 9`). -/
def digitChar (d : Nat) : Char :=
  Char.ofNat (48 + d)

/-- Fuel-driven decimal printer; `fuel > n` suffices. -/
def toDecimalAux : Nat → Nat → List Char
  | 0, _ => []
  | f + 1, n =>
    if n < 10 then [digitChar n]
    else toDecimalAux f (n / 10) ++ [digitChar (n % 10)]

/-- `'%i' % n` for a natural number: decimal digits, no padding. -/
def toDecimal (n : Nat) : List Char :=
  toDecimalAux (n + 1) n

/-- Zero-padding to two digits, as `strftime` does for `%m %d %H %M %S`. -/
def pad2 (n : Nat) : List Char :=
  if n < 10 then '0' :: toDecimal n else toDecimal n

/-- Numeric value of a digit string (inverse of `toDecimal`). -/
def charsVal (s : List Char) : Nat :=
  s.foldl (fun a c => 10 * a + (c.toNat - 48)) 0

/-! ### POSIX path helpers (`os.path`) -/

/-- `os.path.basename`: everything after the last `'/'`. -/
def basename (p : List Char) : List Char :=
  (p.reverse.takeWhile (fun c => !(c == '/'))).reverse

/-- `os.path.dirname`: everything before the last `'/'`, with trailing
slashes stripped unless the result is all slashes. -/
def dirname (p : List Char) : List Char :=
  let head := (p.reverse.dropWhile (fun c => !(c == '/'))).reverse
  if head = [] then []
  else if head.all (fun c => c == '/') then head
  else (head.reverse.dropWhile (fun c => c == '/')).reverse

/-- `os.path.join` for two components (POSIX). -/
def joinPath (a b : List Char) : List Char :=
  if b.head? = some '/' then b
  else if a = [] then b
  else if a.getLast? = some '/' then a ++ b
  else a ++ '/' :: b

/-- `os.path.normpath`, simplified to stripping trailing slashes (the
folder arguments reaching it contain no `.`/`..` components and no
doubled internal slashes). -/
def normpath (p : List Char) : List Char :=
  if p = [] then ['.']
  else
    let q := (p.reverse.dropWhile (fun c => c == '/')).reverse
    if q = [] then ['/'] else q

/-- Extension of a slash-free basename, per CPython `os.path.splitext`:
from the last dot on, unless every character before that dot is a dot. -/
def extOf (bn : List Char) : List Char :=
  let revext := bn.reverse.takeWhile (fun c => !(c == '.'))
  match bn.reverse.dropWhile (fun c => !(c == '.')) with
  | [] => []
  | _ :: pre => if pre.all (fun c => c == '.') then [] else '.' :: revext.reverse

/-- `os.path.splitext`: the extension is found in the part after the last
`'/'`; the root is everything before the extension. -/
def splitext (p : List Char) : List Char × List Char :=
  let e := extOf (basename p)
  (p.take (p.length - e.length), e)

/-! ### `strftime` patterns used by the program -/

/-- `dt.strftime('%Y-%m-%d_%H.%M.%S')` — `basename_from_datetime`, lines 207-212. -/
def basename_from_datetime (dt : DateTime) : List Char :=
  toDecimal dt.year ++ '-' :: pad2 dt.month ++ '-' :: pad2 dt.day ++
    '_' :: pad2 dt.hour ++ '.' :: pad2 dt.minute ++ '.' :: pad2 dt.second

/-- `dt.strftime('%Y' + os.sep + '%Y-%m')` — `folder_from_datetime`, lines 176-177. -/
def folder_from_datetime (dt : DateTime) : List Char :=
  toDecimal dt.year ++ '/' :: (toDecimal dt.year ++ '-' :: pad2 dt.month)

/-- `int(ts.strftime("%Y%m%d"))` (lines 253, 264): the month and day are
zero-padded to two digits, so the integer value of the concatenation is
`y*10000 + m*100 + d` whether or not the year is zero-padded. -/
def ymdInt (dt : DateTime) : Nat :=
  dt.year * 10000 + dt.month * 100 + dt.day

/-! ### Name derivation (`filename_has_14digit`, `filename_from_datetime`) -/

/-- `re.search(r"20[0-9]{12}", bb)` matches at the head of `l`. -/
def matches14At : List Char → Bool
  | '2' :: '0' :: rest => decide (12 ≤ rest.length) && (rest.take 12).all isDigitChar
  | _ => false

/-- `re.search(r"20[0-9]{12}", bb)` finds a match anywhere. -/
def search14 : List Char → Bool
  | [] => false
  | c :: cs => matches14At (c :: cs) || search14 cs

/-- `filename_has_14digit` (lines 180-186): strip the basename to its
alphanumeric characters (`bb`) and its digits (`bb0`); if `bb0` starts
with `"20"` and `bb` contains a 14-digit run starting `20`, return `bb`. -/
def filename_has_14digit (bn : List Char) : Option (List Char) :=
  let bb := bn.filter isAlnumChar
  let bb0 := bn.filter isDigitChar
  if ("20".data.isPrefixOf bb0 && search14 bb) then some bb else none

/-- `filename_from_datetime` (lines 188-204). -/
def filename_from_datetime (dt : DateTime) (path : List Char) : List Char :=
  let bn := basename path
  let filename := (splitext bn).1
  let ext := (splitext bn).2
  let alfdigit_name := filename_has_14digit filename
  let base := basename_from_datetime dt
  if base.isPrefixOf filename then filename ++ lowerList ext
  else
    match alfdigit_name with
    | some bb => base ++ '_' :: '_' :: (bb ++ lowerList ext)
    | none => base ++ '_' :: (filename ++ lowerList ext)

/-- `path_from_datetime` (lines 170-173):
`os.path.join(root_folder, folder, filename)`. -/
def path_from_datetime (root_folder : List Char) (dt : DateTime) (path : List Char) :
    List Char :=
  joinPath (joinPath root_folder (folder_from_datetime dt)) (filename_from_datetime dt path)

/-- `is_valid_filename` (lines 158-160). -/
def valid_extensions : List (List Char) :=
  [".jpg".data, ".jpeg".data, ".png".data, ".dng".data, ".crw".data,
   ".pef".data, ".tif".data, ".heic".data, ".mov".data, ".mp4".data]

/-- `is_valid_filename` (lines 158-160): lower-cased `splitext` extension
must be in the recognized list. -/
def is_valid_filename (path : List Char) : Bool :=
  decide (lowerList (splitext path).2 ∈ valid_extensions)

/-! ### Sidecar lookup in `move_file` (lines 133-135) -/

/-- `aaefile = path[:-3] + "AAE"` (line 133). -/
def aae_source (path : List Char) : List Char :=
  path.take (path.length - 3) ++ "AAE".data

/-- The relocated sidecar's name, `dst + ".AAE"` (line 135). -/
def aae_dest (dst : List Char) : List Char :=
  dst ++ ".AAE".data

/-! ### Collision resolver (`resolve_duplicate`, lines 138-155) -/

/-- The candidate built inside the while loop:
`os.path.join(dirname, '%s-%i%s' % (filename, i, ext))` (lines 148-149). -/
def dedupCandidate (dirn filename ext : List Char) (i : Nat) : List Char :=
  joinPath dirn (filename ++ '-' :: (toDecimal i ++ ext))

/-- The `while True` loop of `resolve_duplicate` (lines 147-153), with
explicit fuel.  `fs` is the set of paths existing at call time
(`os.path.exists`).  With `fuel > ` the number of colliding candidates the
fuel-exhausted branch is never reached. -/
def dedupLoop (fs : List (List Char)) (dirn filename ext : List Char) :
    Nat → Nat → List Char
  | i, 0 => dedupCandidate dirn filename ext i
  | i, fuel + 1 =>
    if dedupCandidate dirn filename ext i ∈ fs then
      dedupLoop fs dirn filename ext (i + 1) fuel
    else dedupCandidate dirn filename ext i

/-- `resolve_duplicate` (lines 138-155).  `fs` models the file system:
`os.path.exists p` is `p ∈ fs`.  The loop starts at `dedup_index = 1`;
`fs.length + 1` fuel is enough to reach the first free candidate. -/
def resolve_duplicate (fs : List (List Char)) (path : List Char) : List Char :=
  if path ∈ fs then
    let bn := basename path
    let filename := (splitext bn).1
    let ext := (splitext bn).2
    let dirn := dirname path
    dedupLoop fs dirn filename ext 1 (fs.length + 1)
  else path

/-! ### Timestamp resolver (`creation_date` and helpers, lines 215-309) -/

/-- Equality on `Except` results is decidable componentwise. -/
instance exceptDecEq {ε α : Type} [DecidableEq ε] [DecidableEq α] :
    DecidableEq (Except ε α) := fun a b =>
  match a, b with
  | .error x, .error y =>
    if h : x = y then .isTrue (by simp [h]) else .isFalse (by simp [h])
  | .ok x, .ok y =>
    if h : x = y then .isTrue (by simp [h]) else .isFalse (by simp [h])
  | .error _, .ok _ => .isFalse (by simp)
  | .ok _, .error _ => .isFalse (by simp)

/-- Per-file facts the resolver reads from the outside world. -/
structure FileEnv where
  /-- The raw `EXIF DateTimeOriginal` (or, failing that,
  `EXIF DateTimeDigitized`) tag value, `none` when both are absent
  (`exif_creation_timestamp`, lines 291-300). -/
  exifTag : Option (List Char)
  /-- `datetime.datetime.fromtimestamp(os.path.getmtime(path))`
  (`file_creation_date`, lines 228-236). -/
  mtime : DateTime
  /-- Outcome of probing the container streams for a `creation_time` tag
  and parsing it to a local datetime (lines 241-252): an exception for a
  probe/parse failure (including `parser.parse(None)` when no stream
  carries the tag), otherwise the parsed timestamp. -/
  probedTs : Except PyExc DateTime
deriving DecidableEq

/-- Leap-year rule used by `datetime.datetime`. -/
def isLeap (y : Nat) : Bool :=
  decide ((y % 4 = 0 ∧ ¬ y % 100 = 0) ∨ y % 400 = 0)

/-- Days in a month, as validated by the `datetime.datetime` constructor. -/
def daysInMonth (y m : Nat) : Nat :=
  if m = 2 then (if isLeap y then 29 else 28)
  else if m ∈ [4, 6, 9, 11] then 30 else 31

/-- `datetime.datetime(*elements)` (line 309) applied to six integers:
range-checks every field and raises `ValueError` outside the ranges. -/
def mkDatetime : List Int → Except PyExc DateTime
  | [y, mo, d, h, mi, s] =>
    if 1 ≤ y ∧ y ≤ 9999 ∧ 1 ≤ mo ∧ mo ≤ 12 ∧ 1 ≤ d ∧
        d ≤ (daysInMonth y.toNat mo.toNat : Int) ∧ 0 ≤ h ∧ h ≤ 23 ∧
        0 ≤ mi ∧ mi ≤ 59 ∧ 0 ≤ s ∧ s ≤ 59 then
      .ok ⟨y.toNat, mo.toNat, d.toNat, h.toNat, mi.toNat, s.toNat⟩
    else .error .valueError
  | _ => .error .typeError

/-- `int(_)` on one component of the split timestamp: an optional sign
followed by decimal digits, anything else raising `ValueError`. -/
def pyInt (s : List Char) : Except PyExc Int :=
  match s with
  | '-' :: ds =>
    if ds ≠ [] ∧ ds.all isDigitChar then .ok (-(charsVal ds : Int))
    else .error .valueError
  | '+' :: ds =>
    if ds ≠ [] ∧ ds.all isDigitChar then .ok (charsVal ds : Int)
    else .error .valueError
  | ds =>
    if ds ≠ [] ∧ ds.all isDigitChar then .ok (charsVal ds : Int)
    else .error .valueError

/-- `re.split(':| ', ts)` (line 304): split on each `':'` or `' '`,
keeping empty pieces between adjacent separators. -/
def splitTs : List Char → List (List Char)
  | [] => [[]]
  | c :: cs =>
    if c = ':' ∨ c = ' ' then [] :: splitTs cs
    else
      match splitTs cs with
      | [] => [[c]]
      | g :: gs => (c :: g) :: gs

/-- `[int(_) for _ in ...]`: the first `int` failure raises. -/
def mapPyInt : List (List Char) → Except PyExc (List Int)
  | [] => .ok []
  | s :: rest =>
    match pyInt s with
    | .error e => .error e
    | .ok v =>
      match mapPyInt rest with
      | .error e => .error e
      | .ok vs => .ok (v :: vs)

/-- `exif_timestamp_to_datetime` (lines 303-309): parse the components
(`ValueError` propagates), raise `BadExifTimestampError` unless there are
exactly six, then build the datetime. -/
def exif_timestamp_to_datetime (ts : List Char) : Except PyExc DateTime :=
  match mapPyInt (splitTs ts) with
  | .error e => .error e
  | .ok elements =>
    if elements.length ≠ 6 then .error .badExifTimestamp
    else mkDatetime elements

/-- `exif_creation_date` (lines 269-280).  A missing tag
(`MissingExifTimestampError`) is caught and yields `None`.  In the
`except BadExifTimestampError` handler the source executes `print(e)`
where `e` is not bound in that scope, so the handler itself raises
`NameError` instead of reaching its `return None`.  `ValueError` from the
datetime constructor propagates. -/
def exif_creation_date (tag : Option (List Char)) : Except PyExc (Option DateTime) :=
  match tag with
  | none => .ok none
  | some ts =>
    match exif_timestamp_to_datetime ts with
    | .ok dt => .ok (some dt)
    | .error e => if e = .badExifTimestamp then .error .nameError else .error e

/-- The non-video arm of `creation_date` (lines 219-225): use the EXIF
date when extraction succeeds with a value, fall back to the filesystem
mtime when it returns `None` or raises `ValueError`; any other exception
propagates. -/
def exif_or_mtime (env : FileEnv) : Except PyExc (Option DateTime) :=
  match exif_creation_date env.exifTag with
  | .ok (some d) => .ok (some d)
  | .ok none => .ok (some env.mtime)
  | .error e => if e = .valueError then .ok (some env.mtime) else .error e

/-- `mov_creation_date` (lines 238-256): probe/parse failures propagate;
otherwise the timestamp is rejected (`None`) exactly when
`int(ts.strftime("%Y%m%d")) <= 2001`. -/
def mov_creation_date (env : FileEnv) : Except PyExc (Option DateTime) :=
  match env.probedTs with
  | .error e => .error e
  | .ok ts => if ymdInt ts ≤ 2001 then .ok none else .ok (some ts)

/-- `creation_date` (lines 215-225): delegate to `mov_creation_date`
exactly when `path.lower().endswith(".mov")`. -/
def creation_date (path : List Char) (env : FileEnv) : Except PyExc (Option DateTime) :=
  if ".mov".data <:+ lowerList path then mov_creation_date env
  else exif_or_mtime env

/-! ### `dest_path` (lines 163-167) -/

/-- `dest_path` (lines 163-167), with the already-resolved creation date
passed in for the `creation_date(path)` call: derive the dated path,
rewrite a trailing `.jpeg` to `.jpg` (`path[:-4] + "jpg"`), then resolve
collisions against the existing paths `fs`. -/
def dest_path (fs : List (List Char)) (root_folder : List Char) (cdate : DateTime)
    (path : List Char) : List Char :=
  let p := path_from_datetime root_folder cdate path
  let p := if ".jpeg".data <:+ p then p.take (p.length - 4) ++ "jpg".data else p
  resolve_duplicate fs p

/-! ### Hash cache (`HashCache`, lines 36-98) -/

/-- One folder's cache: the set of known content hashes and the
basename-to-hash map (`(set(), dict())`, line 44).  Both are modelled as
lists; the map is first-match (`List.lookup`). -/
structure FolderCache where
  hashSet : List (List Char)
  byName : List (List Char × List Char)
deriving DecidableEq

/-- The `defaultdict` of line 44: folder → `FolderCache`, empty default. -/
abbrev HCState := List (List Char × FolderCache)

/-- Read a folder's cache, with the `defaultdict` default. -/
def getFolder (st : HCState) (folder : List Char) : FolderCache :=
  (List.lookup folder st).getD ⟨[], []⟩

/-- Write a folder's cache. -/
def setFolder (st : HCState) (folder : List Char) (fc : FolderCache) : HCState :=
  (folder, fc) :: List.filter (fun p => !(p.1 == folder)) st

/-- `dict` assignment `m[k] = v`. -/
def dictSet (m : List (List Char × List Char)) (k v : List Char) :
    List (List Char × List Char) :=
  (k, v) :: List.filter (fun p => !(p.1 == k)) m

/-- `set.add`. -/
def setAdd (s : List (List Char)) (h : List Char) : List (List Char) :=
  if h ∈ s then s else h :: s

/-- `HashCache._add_file` (lines 62-72).  `hash` maps a path to the SHA-1
of its current content (`HashCache._hash`).  The bail-out test is the
source's `if path in self.hashes[folder][1]` — the **full path** looked up
in a dict whose keys are **basenames**. -/
def add_file (hash : List Char → List Char) (st : HCState) (path : List Char) :
    HCState :=
  let folder := dirname path
  let fc := getFolder st folder
  if (List.lookup path fc.byName).isSome then st
  else
    let file_hash := hash path
    let bn := basename path
    setFolder st folder ⟨setAdd fc.hashSet file_hash, dictSet fc.byName bn file_hash⟩

/-- `HashCache.has_file` (lines 46-60).  `folderFiles` is
`_files_in_folder(target_folder)` (full paths).  Returns the membership
answer together with the updated cache state. -/
def has_file (hash : List Char → List Char) (folderFiles : List (List Char))
    (st : HCState) (target_folder path : List Char) : Bool × HCState :=
  let tf := normpath target_folder
  let st' := folderFiles.foldl (add_file hash) st
  (decide (hash path ∈ (getFolder st' tf).hashSet), st')

/-! ### Helper lemmas: takeWhile / dropWhile over appends -/

theorem takeWhile_append_of_all {p : Char → Bool} {l1 : List Char} (l2 : List Char)
    (h : ∀ x ∈ l1, p x = true) :
    (l1 ++ l2).takeWhile p = l1 ++ l2.takeWhile p := by
  induction l1 with
  | nil => simp
  | cons a l ih =>
    have ha : p a = true := h a (List.mem_cons_self a l)
    simp only [List.cons_append, List.takeWhile_cons, ha, if_true]
    rw [ih (fun x hx => h x (List.mem_cons_of_mem a hx))]

theorem dropWhile_append_of_all {p : Char → Bool} {l1 : List Char} (l2 : List Char)
    (h : ∀ x ∈ l1, p x = true) :
    (l1 ++ l2).dropWhile p = l2.dropWhile p := by
  induction l1 with
  | nil => simp
  | cons a l ih =>
    have ha : p a = true := h a (List.mem_cons_self a l)
    simp only [List.cons_append, List.dropWhile_cons, ha, if_true]
    exact ih (fun x hx => h x (List.mem_cons_of_mem a hx))

theorem takeWhile_eq_self_of_all {p : Char → Bool} {l : List Char}
    (h : ∀ x ∈ l, p x = true) : l.takeWhile p = l := by
  have := @takeWhile_append_of_all p l [] h
  simpa using this

/-! ### Helper lemmas: basename / extOf / splitext -/

theorem basename_no_slash {p : List Char} (h : '/' ∉ p) : basename p = p := by
  unfold basename
  rw [takeWhile_eq_self_of_all, List.reverse_reverse]
  intro x hx
  simp only [Bool.not_eq_true', beq_eq_false_iff_ne]
  intro hxe
  exact h (by simpa [hxe] using List.mem_reverse.mp hx)

theorem basename_append {d f : List Char} (hf : '/' ∉ f) :
    basename (d ++ '/' :: f) = f := by
  unfold basename
  have hrev : (d ++ '/' :: f).reverse = f.reverse ++ '/' :: d.reverse := by
    simp
  rw [hrev, takeWhile_append_of_all _ ?hall]
  case hall =>
    intro x hx
    simp only [Bool.not_eq_true', beq_eq_false_iff_ne]
    intro hxe
    exact hf (by simpa [hxe] using List.mem_reverse.mp hx)
  simp [List.takeWhile_cons]

theorem mem_basename_ne_slash {c : Char} {p : List Char} (h : c ∈ basename p) :
    c ≠ '/' := by
  unfold basename at h
  have := List.mem_takeWhile_imp (List.mem_reverse.mp h)
  simpa [Bool.not_eq_true', beq_eq_false_iff_ne] using this

theorem basename_suffix (p : List Char) : basename p <:+ p := by
  unfold basename
  rw [show p = p.reverse.reverse by rw [List.reverse_reverse]]
  rw [List.reverse_suffix, List.reverse_reverse]
  exact List.takeWhile_prefix _

theorem extOf_append {X r : List Char} (hr : '.' ∉ r) (hX : ∃ c ∈ X, c ≠ '.') :
    extOf (X ++ '.' :: r) = '.' :: r := by
  have hall : ∀ x ∈ r.reverse, (!(x == '.')) = true := by
    intro x hx
    simp only [Bool.not_eq_true', beq_eq_false_iff_ne]
    intro hxe
    exact hr (by simpa [hxe] using List.mem_reverse.mp hx)
  have htw : (X ++ '.' :: r).reverse.takeWhile (fun c => !(c == '.')) = r.reverse := by
    rw [show (X ++ '.' :: r).reverse = r.reverse ++ '.' :: X.reverse by simp,
      takeWhile_append_of_all _ hall]
    simp [List.takeWhile_cons]
  have hdw : (X ++ '.' :: r).reverse.dropWhile (fun c => !(c == '.')) = '.' :: X.reverse := by
    rw [show (X ++ '.' :: r).reverse = r.reverse ++ '.' :: X.reverse by simp,
      dropWhile_append_of_all _ hall]
    simp [List.dropWhile_cons]
  have hnall : X.reverse.all (fun c => c == '.') = false := by
    obtain ⟨c, hc, hcne⟩ := hX
    refine List.all_eq_false.mpr ⟨c, List.mem_reverse.mpr hc, by simpa using hcne⟩
  unfold extOf
  rw [htw, hdw]
  simp [hnall]

theorem splitext_decomp {X r : List Char} (hX : '/' ∉ X) (hr : '/' ∉ r)
    (hrd : '.' ∉ r) (hXd : ∃ c ∈ X, c ≠ '.') :
    splitext (X ++ '.' :: r) = (X, '.' :: r) := by
  unfold splitext
  have hbn : basename (X ++ '.' :: r) = X ++ '.' :: r := by
    apply basename_no_slash
    intro hmem
    rcases List.mem_append.mp hmem with h | h
    · exact hX h
    · rcases List.mem_cons.mp h with h | h
      · exact absurd h.symm (by decide)
      · exact hr h
  rw [hbn, extOf_append hrd hXd]
  show (List.take ((X ++ '.' :: r).length - ('.' :: r).length) (X ++ '.' :: r),
    '.' :: r) = (X, '.' :: r)
  have hlen : (X ++ '.' :: r).length - ('.' :: r).length = X.length := by
    simp
  rw [hlen, List.take_left]

theorem extOf_shape (bn : List Char) :
    extOf bn = [] ∨ ∃ r, extOf bn = '.' :: r ∧ '.' ∉ r := by
  unfold extOf
  cases hdw : bn.reverse.dropWhile (fun c => !(c == '.')) with
  | nil => exact Or.inl rfl
  | cons a pre =>
    by_cases hall : pre.all (fun c => c == '.') = true
    · simp [hall]
    · right
      refine ⟨(bn.reverse.takeWhile (fun c => !(c == '.'))).reverse, ?_, ?_⟩
      · simp [hall]
      · intro hmem
        have := List.mem_takeWhile_imp (List.mem_reverse.mp hmem)
        simp at this

/-! ### Helper lemmas: decimal printing -/

theorem digitChar_toNat {d : Nat} (h : d ≤ 9) : (digitChar d).toNat = 48 + d := by
  interval_cases d <;> decide

theorem isDigitChar_digitChar {d : Nat} (h : d ≤ 9) : isDigitChar (digitChar d) = true := by
  interval_cases d <;> decide

theorem charsVal_append_digit (l : List Char) (c : Char) :
    charsVal (l ++ [c]) = 10 * charsVal l + (c.toNat - 48) := by
  unfold charsVal
  rw [List.foldl_append]
  rfl

theorem charsVal_toDecimalAux : ∀ f n, n < f → charsVal (toDecimalAux f n) = n := by
  intro f
  induction f with
  | zero => intro n hn; omega
  | succ f ih =>
    intro n hn
    unfold toDecimalAux
    by_cases h10 : n < 10
    · rw [if_pos h10]
      show charsVal ([] ++ [digitChar n]) = n
      rw [charsVal_append_digit, digitChar_toNat (by omega)]
      simp [charsVal]
    · rw [if_neg h10]
      rw [charsVal_append_digit, ih (n / 10) (by omega),
        digitChar_toNat (show n % 10 ≤ 9 by omega)]
      omega

theorem charsVal_toDecimal (n : Nat) : charsVal (toDecimal n) = n :=
  charsVal_toDecimalAux (n + 1) n (Nat.lt_succ_self n)

theorem toDecimal_inj {m n : Nat} (h : toDecimal m = toDecimal n) : m = n := by
  have := congrArg charsVal h
  rwa [charsVal_toDecimal, charsVal_toDecimal] at this

theorem toDecimalAux_all_digit :
    ∀ f n c, c ∈ toDecimalAux f n → isDigitChar c = true := by
  intro f
  induction f with
  | zero => intro n c hc; simp [toDecimalAux] at hc
  | succ f ih =>
    intro n c hc
    unfold toDecimalAux at hc
    by_cases h10 : n < 10
    · rw [if_pos h10] at hc
      rcases List.mem_singleton.mp hc with rfl
      exact isDigitChar_digitChar (by omega)
    · rw [if_neg h10] at hc
      rcases List.mem_append.mp hc with h | h
      · exact ih _ _ h
      · rcases List.mem_singleton.mp h with rfl
        exact isDigitChar_digitChar (Nat.le_of_lt_succ (Nat.mod_lt n (by omega)))

theorem toDecimal_all_digit {n : Nat} {c : Char} (h : c ∈ toDecimal n) :
    isDigitChar c = true :=
  toDecimalAux_all_digit (n + 1) n c h

theorem toDecimal_ne_nil (n : Nat) : toDecimal n ≠ [] := by
  unfold toDecimal toDecimalAux
  by_cases h10 : n < 10
  · simp [h10]
  · rw [if_neg h10]
    intro hcontra
    have := congrArg List.length hcontra
    simp at this

theorem pad2_all_digit {n : Nat} {c : Char} (h : c ∈ pad2 n) : isDigitChar c = true := by
  unfold pad2 at h
  by_cases h10 : n < 10
  · rw [if_pos h10] at h
    rcases List.mem_cons.mp h with rfl | h
    · decide
    · exact toDecimal_all_digit h
  · rw [if_neg h10] at h
    exact toDecimal_all_digit h

theorem pad2_ne_nil (n : Nat) : pad2 n ≠ [] := by
  unfold pad2
  by_cases h10 : n < 10
  · simp [h10]
  · rw [if_neg h10]; exact toDecimal_ne_nil n

theorem isDigitChar_ne {c a : Char} (hc : isDigitChar c = true)
    (ha : isDigitChar a = false) : c ≠ a := by
  intro h
  rw [h, ha] at hc
  exact Bool.false_ne_true hc

/-! ### Helper lemmas: ASCII lower-casing -/

theorem toNat_ofNat_add32 {n : Nat} (h1 : 65 ≤ n) (h2 : n ≤ 90) :
    (Char.ofNat (n + 32)).toNat = n + 32 := by
  interval_cases n <;> decide

theorem lowerChar_idem (c : Char) : lowerChar (lowerChar c) = lowerChar c := by
  by_cases h : 65 ≤ c.toNat ∧ c.toNat ≤ 90
  · have h1 : lowerChar c = Char.ofNat (c.toNat + 32) := by
      unfold lowerChar; rw [if_pos h]
    have ht : (Char.ofNat (c.toNat + 32)).toNat = c.toNat + 32 :=
      toNat_ofNat_add32 h.1 h.2
    rw [h1]
    unfold lowerChar
    rw [if_neg (by rw [ht]; omega)]
  · have h1 : lowerChar c = c := by unfold lowerChar; rw [if_neg h]
    rw [h1, h1]

theorem lowerList_idem (l : List Char) : lowerList (lowerList l) = lowerList l := by
  unfold lowerList
  rw [List.map_map]
  exact List.map_congr_left (fun c _ => lowerChar_idem c)

theorem lowerChar_eq_low {c a : Char} (ha : a.toNat < 97) (h : lowerChar c = a) :
    c = a := by
  by_cases hc : 65 ≤ c.toNat ∧ c.toNat ≤ 90
  · exfalso
    have h1 : lowerChar c = Char.ofNat (c.toNat + 32) := by
      unfold lowerChar; rw [if_pos hc]
    have ht : (Char.ofNat (c.toNat + 32)).toNat = c.toNat + 32 :=
      toNat_ofNat_add32 hc.1 hc.2
    have := congrArg Char.toNat (h1.symm.trans h)
    omega
  · have h1 : lowerChar c = c := by unfold lowerChar; rw [if_neg hc]
    rw [← h1, h]

theorem not_mem_lowerList {a : Char} {r : List Char} (ha : a.toNat < 97)
    (h : a ∉ r) : a ∉ lowerList r := by
  intro hmem
  obtain ⟨d, hd, hld⟩ := List.mem_map.mp hmem
  exact h ((lowerChar_eq_low ha hld) ▸ hd)

/-! ### Helper lemmas: suffixes -/

theorem suffix_drop_eq {l1 l : List Char} (h : l1 <:+ l) :
    l1 = l.drop (l.length - l1.length) := by
  obtain ⟨t, ht⟩ := h
  subst ht
  have : (t ++ l1).length - l1.length = t.length := by simp
  rw [this, List.drop_left]

theorem suffix_eq_of_length {l1 l2 l : List Char} (h1 : l1 <:+ l) (h2 : l2 <:+ l)
    (hlen : l1.length = l2.length) : l1 = l2 := by
  rw [suffix_drop_eq h1, suffix_drop_eq h2, hlen]

theorem suffix_of_suffix_le {l1 l2 l : List Char} (h1 : l1 <:+ l) (h2 : l2 <:+ l)
    (hlen : l1.length ≤ l2.length) : l1 <:+ l2 := by
  obtain ⟨t2, ht2⟩ := h2
  have hd := suffix_drop_eq h1
  subst ht2
  have hlen2 : (t2 ++ l2).length - l1.length = t2.length + (l2.length - l1.length) := by
    simp; omega
  rw [hlen2, ← List.drop_drop, List.drop_left] at hd
  exact hd ▸ List.drop_suffix _ _

/-! ### Helper lemmas: joinPath -/

theorem joinPath_suffix (a b : List Char) : b <:+ joinPath a b := by
  unfold joinPath
  by_cases h1 : b.head? = some '/'
  · rw [if_pos h1]
  · rw [if_neg h1]
    by_cases h2 : a = []
    · rw [if_pos h2]
    · rw [if_neg h2]
      by_cases h3 : a.getLast? = some '/'
      · rw [if_pos h3]; exact List.suffix_append a b
      · rw [if_neg h3]; exact ⟨a ++ ['/'], by simp⟩

theorem joinPath_eq {a b : List Char} (ha : a ≠ []) (hal : a.getLast? ≠ some '/')
    (hb : b.head? ≠ some '/') : joinPath a b = a ++ '/' :: b := by
  unfold joinPath
  rw [if_neg hb, if_neg ha, if_neg hal]

theorem joinPath_inj {a b1 b2 : List Char} (hh : b1.head? = b2.head?)
    (h : joinPath a b1 = joinPath a b2) : b1 = b2 := by
  unfold joinPath at h
  by_cases h1 : b1.head? = some '/'
  · have h1' : b2.head? = some '/' := hh ▸ h1
    rwa [if_pos h1, if_pos h1'] at h
  · have h1' : ¬ b2.head? = some '/' := by rw [← hh]; exact h1
    rw [if_neg h1, if_neg h1'] at h
    by_cases h2 : a = []
    · rwa [if_pos h2, if_pos h2] at h
    · rw [if_neg h2, if_neg h2] at h
      by_cases h3 : a.getLast? = some '/'
      · rw [if_pos h3, if_pos h3] at h
        exact List.append_cancel_left h
      · rw [if_neg h3, if_neg h3] at h
        have h4 := List.append_cancel_left h
        injection h4

/-! ### Helper lemmas: shape of the strftime output -/

theorem base_head_digit (dt : DateTime) :
    ∃ c rest, basename_from_datetime dt = c :: rest ∧ isDigitChar c = true := by
  obtain ⟨c, cs, hc⟩ := List.exists_cons_of_ne_nil (toDecimal_ne_nil dt.year)
  refine ⟨c, cs ++ '-' :: pad2 dt.month ++ '-' :: pad2 dt.day ++
    '_' :: pad2 dt.hour ++ '.' :: pad2 dt.minute ++ '.' :: pad2 dt.second, ?_, ?_⟩
  · unfold basename_from_datetime
    rw [hc]
    simp
  · exact toDecimal_all_digit (hc ▸ List.mem_cons_self c cs)

theorem mem_base_ne_slash {c : Char} {dt : DateTime}
    (h : c ∈ basename_from_datetime dt) : c ≠ '/' := by
  unfold basename_from_datetime at h
  have hdig : ∀ x : Char, isDigitChar x = true → x ≠ '/' := by
    intro x hx heq
    rw [heq] at hx
    exact absurd hx (by decide)
  simp only [List.mem_append, List.mem_cons] at h
  rcases h with ((((h | h) | h) | h) | h) | h
  · exact hdig c (toDecimal_all_digit h)
  · rcases h with rfl | h
    · decide
    · exact hdig c (pad2_all_digit h)
  · rcases h with rfl | h
    · decide
    · exact hdig c (pad2_all_digit h)
  · rcases h with rfl | h
    · decide
    · exact hdig c (pad2_all_digit h)
  · rcases h with rfl | h
    · decide
    · exact hdig c (pad2_all_digit h)
  · rcases h with rfl | h
    · decide
    · exact hdig c (pad2_all_digit h)

/-! ### Helper lemmas: the dedup loop -/

theorem nodup_subset_length {L fs : List (List Char)} (hnd : L.Nodup)
    (hsub : ∀ x ∈ L, x ∈ fs) : L.length ≤ fs.length := by
  have h1 : L.toFinset.card = L.length := List.toFinset_card_of_nodup hnd
  have h2 : L.toFinset ⊆ fs.toFinset := by
    intro x hx
    exact List.mem_toFinset.mpr (hsub x (List.mem_toFinset.mp hx))
  have h3 := Finset.card_le_card h2
  have h4 := List.toFinset_card_le fs
  omega

theorem dedupBody_head (fn e x y : List Char) :
    (fn ++ '-' :: (x ++ e)).head? = (fn ++ '-' :: (y ++ e)).head? := by
  cases fn <;> simp

theorem dedupCandidate_inj {d fn e : List Char} {i j : Nat}
    (h : dedupCandidate d fn e i = dedupCandidate d fn e j) : i = j := by
  unfold dedupCandidate at h
  have hb := joinPath_inj (dedupBody_head fn e (toDecimal i) (toDecimal j)) h
  have h1 := List.append_cancel_left hb
  injection h1 with h1a h1b
  exact toDecimal_inj (List.append_cancel_right h1b)

theorem dedup_exists (fs : List (List Char)) (d fn e : List Char) (i : Nat) :
    ∃ n, n ≤ fs.length ∧ dedupCandidate d fn e (i + n) ∉ fs := by
  by_contra hc
  push_neg at hc
  have hnodup : ((List.range (fs.length + 1)).map
      (fun n => dedupCandidate d fn e (i + n))).Nodup := by
    refine (List.nodup_range _).map ?_
    intro x y hxy
    have := dedupCandidate_inj hxy
    omega
  have hsub : ∀ x ∈ (List.range (fs.length + 1)).map
      (fun n => dedupCandidate d fn e (i + n)), x ∈ fs := by
    intro x hx
    obtain ⟨n, hn, rfl⟩ := List.mem_map.mp hx
    have hn' := List.mem_range.mp hn
    exact hc n (by omega)
  have := nodup_subset_length hnodup hsub
  simp at this

theorem dedup_bound {fs : List (List Char)} {d fn e : List Char} {N : Nat}
    (h : ∀ k, 1 ≤ k → k < N → dedupCandidate d fn e k ∈ fs) : N ≤ fs.length + 1 := by
  by_contra hc
  push_neg at hc
  have hnodup : ((List.range (fs.length + 1)).map
      (fun n => dedupCandidate d fn e (n + 1))).Nodup := by
    refine (List.nodup_range _).map ?_
    intro x y hxy
    have := dedupCandidate_inj hxy
    omega
  have hsub : ∀ x ∈ (List.range (fs.length + 1)).map
      (fun n => dedupCandidate d fn e (n + 1)), x ∈ fs := by
    intro x hx
    obtain ⟨n, hn, rfl⟩ := List.mem_map.mp hx
    have hn' := List.mem_range.mp hn
    exact h (n + 1) (by omega) (by omega)
  have := nodup_subset_length hnodup hsub
  simp at this

theorem dedupLoop_eq {fs : List (List Char)} {d fn e : List Char} :
    ∀ (fuel i N : Nat), i ≤ N → N < i + fuel →
      dedupCandidate d fn e N ∉ fs →
      (∀ k, i ≤ k → k < N → dedupCandidate d fn e k ∈ fs) →
      dedupLoop fs d fn e i fuel = dedupCandidate d fn e N := by
  intro fuel
  induction fuel with
  | zero => intro i N h1 h2 _ _; omega
  | succ fuel ih =>
    intro i N h1 h2 hN hbelow
    unfold dedupLoop
    by_cases hi : dedupCandidate d fn e i ∈ fs
    · rw [if_pos hi]
      have hiN : i < N := by
        rcases Nat.lt_or_ge i N with h | h
        · exact h
        · exact absurd ((by omega : N = i) ▸ hN) (fun hcontra => hcontra hi)
      exact ih (i + 1) N (by omega) (by omega) hN
        (fun k hk1 hk2 => hbelow k (by omega) hk2)
    · rw [if_neg hi]
      have hNi : N = i := by
        by_contra hne
        exact hi (hbelow i (le_refl i) (by omega))
      rw [hNi]

/-! ### Helper lemmas: inversion of `filename_has_14digit` -/

theorem filename_has_14digit_some {bn bb : List Char}
    (h : filename_has_14digit bn = some bb) :
    bb = bn.filter isAlnumChar ∧
      "20".data.isPrefixOf (bn.filter isDigitChar) = true ∧
      search14 (bn.filter isAlnumChar) = true := by
  simp only [filename_has_14digit] at h
  split at h
  · rename_i hc
    rcases Bool.and_eq_true_iff.mp hc with ⟨hc1, hc2⟩
    exact ⟨(Option.some.inj h).symm, hc1, hc2⟩
  · exact absurd h (by simp)

theorem filename_has_14digit_none {bn : List Char}
    (h : "20".data.isPrefixOf (bn.filter isDigitChar) = false) :
    filename_has_14digit bn = none := by
  simp only [filename_has_14digit]
  rw [if_neg]
  simp [h]

/-! ### Helper lemmas: shape of `filename_from_datetime` results -/

theorem isAlnumChar_ne_slash {c : Char} (h : isAlnumChar c = true) : c ≠ '/' := by
  intro heq
  rw [heq] at h
  exact absurd h (by decide)

theorem basename_idem (p : List Char) : basename (basename p) = basename p :=
  basename_no_slash (fun h => mem_basename_ne_slash h rfl)

theorem splitext_basename_snd (path : List Char) :
    (splitext (basename path)).2 = extOf (basename path) := by
  simp only [splitext, basename_idem]

theorem mem_extOf {bn : List Char} {c : Char} (h : c ∈ extOf bn) :
    c = '.' ∨ c ∈ bn := by
  simp only [extOf] at h
  split at h
  · simp at h
  · split at h
    · simp at h
    · rcases List.mem_cons.mp h with rfl | h
      · exact Or.inl rfl
      · right
        have h1 := List.mem_reverse.mp h
        have h2 := (List.takeWhile_prefix
          (fun c => !(c == '.'))).sublist.subset h1
        exact List.mem_reverse.mp h2

theorem mem_splitext_fst {path : List Char} {c : Char}
    (h : c ∈ (splitext (basename path)).1) : c ∈ basename path := by
  simp only [splitext] at h
  exact List.mem_of_mem_take h

theorem mem_splitext_snd_ne_slash {path : List Char} {c : Char}
    (h : c ∈ (splitext (basename path)).2) : c ≠ '/' := by
  rw [splitext_basename_snd] at h
  rcases mem_extOf h with rfl | h
  · decide
  · exact mem_basename_ne_slash h

theorem base_prefix_witness {dt : DateTime} {X : List Char}
    (h : basename_from_datetime dt <+: X) : ∃ c ∈ X, c ≠ '.' := by
  obtain ⟨c, rest, hbase, hdig⟩ := base_head_digit dt
  obtain ⟨t, ht⟩ := h
  refine ⟨c, ?_, isDigitChar_ne hdig (by decide)⟩
  rw [← ht, hbase]
  exact List.mem_append_left _ (List.mem_cons_self _ _)

theorem lowerChar_dot : lowerChar '.' = '.' := by decide

theorem filename_from_datetime_keep {dt : DateTime} {path : List Char}
    (h : (basename_from_datetime dt).isPrefixOf (splitext (basename path)).1 = true) :
    filename_from_datetime dt path =
      (splitext (basename path)).1 ++ lowerList (splitext (basename path)).2 := by
  simp only [filename_from_datetime]
  rw [if_pos h]

theorem filename_from_datetime_plain {dt : DateTime} {path : List Char}
    (h1 : (basename_from_datetime dt).isPrefixOf (splitext (basename path)).1 = false)
    (h14 : filename_has_14digit (splitext (basename path)).1 = none) :
    filename_from_datetime dt path =
      basename_from_datetime dt ++ '_' :: ((splitext (basename path)).1 ++
        lowerList (splitext (basename path)).2) := by
  simp only [filename_from_datetime]
  rw [if_neg (by simp [h1]), h14]

theorem filename_from_datetime_decomp (dt : DateTime) (path : List Char) :
    ∃ X, filename_from_datetime dt path =
        X ++ lowerList (splitext (basename path)).2 ∧
      basename_from_datetime dt <+: X ∧ ∀ c ∈ X, c ≠ '/' := by
  simp only [filename_from_datetime]
  by_cases h1 : (basename_from_datetime dt).isPrefixOf (splitext (basename path)).1 = true
  · rw [if_pos h1]
    refine ⟨(splitext (basename path)).1, rfl, List.isPrefixOf_iff_prefix.mp h1, ?_⟩
    intro c hc
    exact mem_basename_ne_slash (mem_splitext_fst hc)
  · rw [if_neg h1]
    cases h14 : filename_has_14digit (splitext (basename path)).1 with
    | some bb =>
      refine ⟨basename_from_datetime dt ++ '_' :: '_' :: bb, by simp,
        List.prefix_append _ _, ?_⟩
      intro c hc
      rcases List.mem_append.mp hc with h | h
      · exact mem_base_ne_slash h
      · rcases List.mem_cons.mp h with rfl | h
        · decide
        · rcases List.mem_cons.mp h with rfl | h
          · decide
          · have hbb := (filename_has_14digit_some h14).1
            exact isAlnumChar_ne_slash (List.of_mem_filter (hbb ▸ h))
    | none =>
      refine ⟨basename_from_datetime dt ++ '_' :: (splitext (basename path)).1,
        by simp, List.prefix_append _ _, ?_⟩
      intro c hc
      rcases List.mem_append.mp hc with h | h
      · exact mem_base_ne_slash h
      · rcases List.mem_cons.mp h with rfl | h
        · decide
        · exact mem_basename_ne_slash (mem_splitext_fst h)

/-! ## Claim theorems -/

/-- C5: the two name-derivation test vectors hold: timestamp
2004-05-07T20:16:31 with `IMG_0001.JPG` yields
`2004-05-07_20.16.31_IMG_0001.jpg`, and timestamp 2018-02-02T00:00:00 with
`scan-20170101123000.png` yields
`2018-02-02_00.00.00__scan20170101123000.png`. -/
theorem C5_name_derivation_vectors :
    filename_from_datetime ⟨2004, 5, 7, 20, 16, 31⟩ "IMG_0001.JPG".data =
      "2004-05-07_20.16.31_IMG_0001.jpg".data ∧
    filename_from_datetime ⟨2018, 2, 2, 0, 0, 0⟩ "scan-20170101123000.png".data =
      "2018-02-02_00.00.00__scan20170101123000.png".data := by
  constructor <;> decide

/-- C1 (code bug): for a non-video file whose EXIF tag is present but
malformed (five integer components instead of six), `creation_date` does
not recover and fall back to the filesystem mtime: the
`except BadExifTimestampError` handler executes `print(e)` with `e`
unbound, so it raises `NameError`, which `creation_date` (catching only
`ValueError`) propagates. -/
theorem C1_malformed_exif_raises_nameerror :
    exif_timestamp_to_datetime "2004:05:07 20:16".data = .error .badExifTimestamp ∧
    creation_date "photo.jpg".data
      ⟨some "2004:05:07 20:16".data, ⟨2010, 1, 2, 3, 4, 5⟩, .error .probeError⟩ =
      .error .nameError := by
  constructor <;> rfl

/-- C2 (code bug): the "too old" guard of `mov_creation_date` compares
`int(ts.strftime("%Y%m%d"))` — an 8-digit number such as 20000101 — with
2001, so a probed creation time of 2000-01-01 is NOT rejected: the
resolver returns it as-is instead of the `None` the spec requires
(2015-06-01 is also returned as-is, as the spec says). -/
theorem C2_timestamp_floor_never_fires :
    mov_creation_date ⟨none, ⟨1970, 1, 1, 0, 0, 0⟩, .ok ⟨2000, 1, 1, 0, 0, 0⟩⟩ =
      .ok (some ⟨2000, 1, 1, 0, 0, 0⟩) ∧
    ymdInt ⟨2000, 1, 1, 0, 0, 0⟩ = 20000101 ∧
    mov_creation_date ⟨none, ⟨1970, 1, 1, 0, 0, 0⟩, .ok ⟨2015, 6, 1, 0, 0, 0⟩⟩ =
      .ok (some ⟨2015, 6, 1, 0, 0, 0⟩) := by
  refine ⟨rfl, rfl, rfl⟩

/-- C4 (code bug): the cache does not memoize.  With folder `/t` already
holding the entry `a.jpg ↦ h0` for the previously hashed file `/t/a.jpg`,
a `has_file` query re-hashes `/t/a.jpg` (its content now hashes to `h1`)
and overwrites the entry, because `_add_file`'s bail-out test looks up the
full path in the basename-keyed dict (second conjunct: that lookup
misses). -/
theorem C4_cache_does_not_memoize :
    (List.lookup "a.jpg".data
      (getFolder (has_file (fun _ => "h1".data) ["/t/a.jpg".data]
        [("/t".data, ⟨["h0".data], [("a.jpg".data, "h0".data)]⟩)]
        "/t".data "/t/new.jpg".data).2 "/t".data).byName) = some "h1".data ∧
    (List.lookup "/t/a.jpg".data
      (getFolder ([("/t".data, ⟨["h0".data], [("a.jpg".data, "h0".data)]⟩)] : HCState)
        "/t".data).byName) = none := by
  constructor <;> rfl

/-- C8 fails as claimed: for the recognized 4-character extension `.heic`
the sidecar looked up by `path[:-3] + "AAE"` does not share the source
file's basename — for `photo.heic` the mover probes `photo.hAAE`, not
`photo.AAE`. -/
theorem C8_counterexample :
    is_valid_filename "photo.heic".data = true ∧
    aae_source "photo.heic".data = "photo.hAAE".data ∧
    (splitext "photo.heic".data).1 ++ ".AAE".data = "photo.AAE".data ∧
    aae_source "photo.heic".data ≠ (splitext "photo.heic".data).1 ++ ".AAE".data := by
  refine ⟨by decide, by decide, by decide, by decide⟩

/-- C8 amended: the mover looks up the path obtained by replacing the last
three characters of the source path with `AAE`; for sources with a
three-character extension (`.jpg`, `.png`, `.mov`, `.mp4`, …) this is
exactly the sidecar sharing the full basename, and the relocated sidecar
is always named destination plus `.AAE`. -/
theorem C8_amended (stem r dst : List Char) (hr : r.length = 3) :
    aae_source (stem ++ '.' :: r) = stem ++ '.' :: "AAE".data ∧
    aae_dest dst = dst ++ ".AAE".data := by
  constructor
  · unfold aae_source
    have hlen : (stem ++ '.' :: r).length - 3 = stem.length + 1 := by
      simp [hr]
    rw [hlen, List.take_append_eq_append_take,
      List.take_of_length_le (by omega), show stem.length + 1 - stem.length = 1 by omega]
    cases r with
    | nil => exact absurd hr (by decide)
    | cons a rs => simp
  · rfl

/-- C8 amended, witness at `photo.jpg`. -/
theorem C8_amended_witness : aae_source "photo.jpg".data = "photo.AAE".data := by
  have h := (C8_amended "photo".data "jpg".data "d".data (by decide)).1
  rw [show "photo.jpg".data = "photo".data ++ '.' :: "jpg".data from rfl]
  rw [h]
  decide

/-! ### Helper lemmas: extensions are suffixes -/

theorem dropWhile_head_false {p : Char → Bool} {l t : List Char} {a : Char}
    (h : l.dropWhile p = a :: t) : p a = false := by
  induction l with
  | nil => simp at h
  | cons x xs ih =>
    rw [List.dropWhile_cons] at h
    by_cases hx : p x = true
    · rw [if_pos hx] at h
      exact ih h
    · rw [if_neg hx] at h
      injection h with h1 h2
      subst h1
      simpa using hx

theorem extOf_suffix (bn : List Char) : extOf bn <:+ bn := by
  simp only [extOf]
  split
  · exact List.nil_suffix
  · rename_i a pre heq
    split
    · exact List.nil_suffix
    · have ha : (!(a == '.')) = false := dropWhile_head_false heq
      have ha' : a = '.' := by simpa using ha
      subst ha'
      refine ⟨pre.reverse, ?_⟩
      have h0 : bn.reverse.takeWhile (fun c => !(c == '.')) ++
          bn.reverse.dropWhile (fun c => !(c == '.')) = bn.reverse :=
        List.takeWhile_append_dropWhile _ _
      rw [heq] at h0
      have h1 := congrArg List.reverse h0
      simp only [List.reverse_append, List.reverse_cons, List.reverse_reverse] at h1
      simp only [List.append_assoc, List.singleton_append] at h1
      exact h1

theorem splitext_snd (p : List Char) : (splitext p).2 = extOf (basename p) := rfl

theorem suffix_map_lower {l1 l2 : List Char} (h : l1 <:+ l2) :
    lowerList l1 <:+ lowerList l2 := by
  obtain ⟨t, ht⟩ := h
  exact ⟨lowerList t, by rw [← ht]; simp [lowerList]⟩

theorem ext_suffix_lower (path : List Char) :
    lowerList (splitext path).2 <:+ lowerList path := by
  rw [splitext_snd]
  exact suffix_map_lower ((extOf_suffix (basename path)).trans (basename_suffix path))

/-- C3 fails as claimed: `.mp4` is in the recognized video-extension set,
but `creation_date` delegates to container-tag extraction only for `.mov`
paths.  For `clip.mp4` with a perfectly probeable container timestamp
(2015-06-01) and no EXIF tag, the resolver returns the filesystem mtime
(2010-01-02), not the container timestamp. -/
theorem C3_counterexample :
    is_valid_filename "clip.mp4".data = true ∧
    ".mp4".data ∈ valid_extensions ∧
    mov_creation_date ⟨none, ⟨2010, 1, 2, 3, 4, 5⟩, .ok ⟨2015, 6, 1, 12, 0, 0⟩⟩ =
      .ok (some ⟨2015, 6, 1, 12, 0, 0⟩) ∧
    creation_date "clip.mp4".data
      ⟨none, ⟨2010, 1, 2, 3, 4, 5⟩, .ok ⟨2015, 6, 1, 12, 0, 0⟩⟩ =
      .ok (some ⟨2010, 1, 2, 3, 4, 5⟩) := by
  refine ⟨by decide, by decide, rfl, rfl⟩

/-- C3 amended: the resolver delegates to container-tag extraction
exactly for `.mov` files (case-insensitive): a file whose `splitext`
extension lower-cases to `.mov` is resolved by `mov_creation_date`, while
one whose extension lower-cases to `.mp4` — though equally a recognized
video extension — is resolved by the EXIF-then-mtime chain
(`mp4_creation_date` in the source is never called). -/
theorem C3_amended (path : List Char) (env : FileEnv) :
    (lowerList (splitext path).2 = ".mov".data →
      creation_date path env = mov_creation_date env) ∧
    (lowerList (splitext path).2 = ".mp4".data →
      creation_date path env = exif_or_mtime env) := by
  constructor
  · intro h
    have hsuf : ".mov".data <:+ lowerList path := h ▸ ext_suffix_lower path
    unfold creation_date
    rw [if_pos hsuf]
  · intro h
    have hsuf : ".mp4".data <:+ lowerList path := h ▸ ext_suffix_lower path
    have hnot : ¬ (".mov".data <:+ lowerList path) := by
      intro hmov
      have := suffix_eq_of_length hmov hsuf (by decide)
      exact absurd this (by decide)
    unfold creation_date
    rw [if_neg hnot]

/-- C3 amended, witness: `b.MOV` delegates to the container probe,
`clip.mp4` goes to the EXIF/mtime chain. -/
theorem C3_amended_witness :
    creation_date "b.MOV".data ⟨none, ⟨2010, 1, 2, 3, 4, 5⟩, .ok ⟨2015, 6, 1, 0, 0, 0⟩⟩ =
      mov_creation_date ⟨none, ⟨2010, 1, 2, 3, 4, 5⟩, .ok ⟨2015, 6, 1, 0, 0, 0⟩⟩ ∧
    creation_date "clip.mp4".data ⟨none, ⟨2010, 1, 2, 3, 4, 5⟩, .ok ⟨2015, 6, 1, 0, 0, 0⟩⟩ =
      exif_or_mtime ⟨none, ⟨2010, 1, 2, 3, 4, 5⟩, .ok ⟨2015, 6, 1, 0, 0, 0⟩⟩ :=
  ⟨(C3_amended "b.MOV".data _).1 (by decide),
   (C3_amended "clip.mp4".data _).2 (by decide)⟩

/-! ### Helper lemmas: splitext concatenation -/

theorem take_sub_append {p e : List Char} (h : e <:+ p) :
    p.take (p.length - e.length) ++ e = p := by
  obtain ⟨t, ht⟩ := h
  subst ht
  have hl : (t ++ e).length - e.length = t.length := by simp
  rw [hl, List.take_left]

theorem splitext_concat (p : List Char) : (splitext p).1 ++ (splitext p).2 = p := by
  have hsuf : (splitext p).2 <:+ p := by
    rw [splitext_snd]
    exact (extOf_suffix (basename p)).trans (basename_suffix p)
  exact take_sub_append hsuf

theorem filter_digits_split (path : List Char) :
    (basename path).filter isDigitChar =
      ((splitext (basename path)).1).filter isDigitChar ++
      ((splitext (basename path)).2).filter isDigitChar := by
  conv_lhs => rw [← splitext_concat (basename path)]
  rw [List.filter_append]

/-- C10 fails as stated: take the timestamp 1999-01-01T00:00:00 and the
file `1999-01-01_00.00.00_20000000000000.jpg`.  Its stem's digit
projection starts `19`, not `20`, yet its alphanumeric projection contains
a 14-digit `20…` run; the 14-digit rule indeed does not fire, but the
output is the already-canonical name kept unchanged by the prefix branch —
not the plain `canonicalBasename + "_" + name` form the claim asserts. -/
theorem C10_counterexample :
    "20".data.isPrefixOf
      ("1999-01-01_00.00.00_20000000000000".data.filter isDigitChar) = false ∧
    search14 ("1999-01-01_00.00.00_20000000000000".data.filter isAlnumChar) = true ∧
    filename_has_14digit "1999-01-01_00.00.00_20000000000000".data = none ∧
    filename_from_datetime ⟨1999, 1, 1, 0, 0, 0⟩
      "1999-01-01_00.00.00_20000000000000.jpg".data =
      "1999-01-01_00.00.00_20000000000000.jpg".data ∧
    filename_from_datetime ⟨1999, 1, 1, 0, 0, 0⟩
      "1999-01-01_00.00.00_20000000000000.jpg".data ≠
      basename_from_datetime ⟨1999, 1, 1, 0, 0, 0⟩ ++ '_' ::
        ("1999-01-01_00.00.00_20000000000000".data ++ ".jpg".data) := by
  refine ⟨by decide, by decide, by decide, by decide, by decide⟩

/-- C10 amended: (i) the embedded-14-digit rule fires only when the
digits-only projection of the whole original filename starts with `20`;
(ii) for a filename whose digit projection does not start with `20` the
rule does not apply, and — provided the stem does not already begin with
the canonical basename, which is checked first — the plain
`canonicalBasename + "_" + name` form is used. -/
theorem C10_amended (dt : DateTime) (path : List Char) :
    (filename_has_14digit (splitext (basename path)).1 ≠ none →
      "20".data <+: (basename path).filter isDigitChar) ∧
    (¬ ("20".data <+: (basename path).filter isDigitChar) →
      (basename_from_datetime dt).isPrefixOf (splitext (basename path)).1 = false →
      filename_has_14digit (splitext (basename path)).1 = none ∧
      filename_from_datetime dt path =
        basename_from_datetime dt ++ '_' :: ((splitext (basename path)).1 ++
          lowerList (splitext (basename path)).2)) := by
  constructor
  · intro h14
    cases hh : filename_has_14digit (splitext (basename path)).1 with
    | none => exact absurd hh h14
    | some bb =>
      have hpre := List.isPrefixOf_iff_prefix.mp (filename_has_14digit_some hh).2.1
      rw [filter_digits_split]
      exact hpre.trans (List.prefix_append _ _)
  · intro hnot h1
    have h20 : "20".data.isPrefixOf
        (((splitext (basename path)).1).filter isDigitChar) = false := by
      by_contra hcontra
      have hc : "20".data.isPrefixOf
          (((splitext (basename path)).1).filter isDigitChar) = true := by
        simpa using hcontra
      apply hnot
      rw [filter_digits_split]
      exact (List.isPrefixOf_iff_prefix.mp hc).trans (List.prefix_append _ _)
    have hnone := filename_has_14digit_none h20
    exact ⟨hnone, filename_from_datetime_plain h1 hnone⟩

/-- C10 amended, witness: `scan-20170101123000.png` exercises part (i)
and `IMG1_20170101123000.jpg` (first digit characters `1…`) part (ii). -/
theorem C10_amended_witness :
    "20".data <+: ("scan-20170101123000.png".data.filter isDigitChar) ∧
    filename_from_datetime ⟨2018, 2, 2, 0, 0, 0⟩ "IMG1_20170101123000.jpg".data =
      "2018-02-02_00.00.00_IMG1_20170101123000.jpg".data :=
  ⟨(C10_amended ⟨2018, 2, 2, 0, 0, 0⟩ "scan-20170101123000.png".data).1 (by decide),
   (((C10_amended ⟨2018, 2, 2, 0, 0, 0⟩ "IMG1_20170101123000.jpg".data).2
      (by decide) (by decide)).2).trans (by decide)⟩

/-- C7: collision resolution.  If the candidate path does not exist the
resolver returns it unchanged; if it exists, then for the smallest `N ≥ 1`
whose `-N`-suffixed candidate (suffix inserted between the stem and the
extension) does not exist, the resolver returns exactly that candidate,
and the returned path does not exist at call time. -/
theorem C7_resolve_duplicate_spec (fs : List (List Char)) (path : List Char) :
    (path ∉ fs → resolve_duplicate fs path = path) ∧
    (path ∈ fs → ∀ N, 1 ≤ N →
      dedupCandidate (dirname path) (splitext (basename path)).1
        (splitext (basename path)).2 N ∉ fs →
      (∀ k, 1 ≤ k → k < N →
        dedupCandidate (dirname path) (splitext (basename path)).1
          (splitext (basename path)).2 k ∈ fs) →
      resolve_duplicate fs path =
        dedupCandidate (dirname path) (splitext (basename path)).1
          (splitext (basename path)).2 N ∧
      resolve_duplicate fs path ∉ fs) := by
  constructor
  · intro h
    simp only [resolve_duplicate]
    rw [if_neg h]
  · intro hmem N hN hfree hbelow
    have hbound : N ≤ fs.length + 1 := dedup_bound hbelow
    have hloop := dedupLoop_eq (fs.length + 1) 1 N hN (by omega) hfree
      (fun k hk1 hk2 => hbelow k hk1 hk2)
    simp only [resolve_duplicate]
    rw [if_pos hmem, hloop]
    exact ⟨rfl, hfree⟩

/-- C7, witness: a non-existing candidate is returned unchanged; an
existing `a.jpg` with `a-1.jpg` also taken resolves to the `-2` candidate,
which does not exist. -/
theorem C7_resolve_duplicate_witness :
    resolve_duplicate ["a.jpg".data, "b.jpg".data] "c.jpg".data = "c.jpg".data ∧
    resolve_duplicate ["a.jpg".data, "a-1.jpg".data] "a.jpg".data =
      dedupCandidate (dirname "a.jpg".data) (splitext (basename "a.jpg".data)).1
        (splitext (basename "a.jpg".data)).2 2 ∧
    resolve_duplicate ["a.jpg".data, "a-1.jpg".data] "a.jpg".data ∉
      (["a.jpg".data, "a-1.jpg".data] : List (List Char)) := by
  have h2 := (C7_resolve_duplicate_spec ["a.jpg".data, "a-1.jpg".data] "a.jpg".data).2
    (by decide) 2 (by decide) (by decide)
    (fun k hk1 hk2 => by
      have hk : k = 1 := by omega
      subst hk
      decide)
  exact ⟨(C7_resolve_duplicate_spec ["a.jpg".data, "b.jpg".data] "c.jpg".data).1
    (by decide), h2.1, h2.2⟩

/-! ### Helper lemma: lower-casing past a leading dot -/

theorem lowerList_cons_dot (l : List Char) :
    lowerList ('.' :: l) = '.' :: lowerList l := by
  simp [lowerList, lowerChar_dot]

/-- C6 fails as stated for extensionless names: with timestamp
2004-05-07T20:16:31, the name `IMG` maps to `2004-05-07_20.16.31_IMG`,
whose re-application splits at the dot inside the canonical stamp
(`.31_IMG` is parsed as an extension) and re-stamps the name instead of
leaving it unchanged. -/
theorem C6_counterexample :
    filename_from_datetime ⟨2004, 5, 7, 20, 16, 31⟩ "IMG".data =
      "2004-05-07_20.16.31_IMG".data ∧
    filename_from_datetime ⟨2004, 5, 7, 20, 16, 31⟩
      (filename_from_datetime ⟨2004, 5, 7, 20, 16, 31⟩ "IMG".data) =
      "2004-05-07_20.16.31_2004-05-07_20.16.31_img".data ∧
    filename_from_datetime ⟨2004, 5, 7, 20, 16, 31⟩
      (filename_from_datetime ⟨2004, 5, 7, 20, 16, 31⟩ "IMG".data) ≠
      filename_from_datetime ⟨2004, 5, 7, 20, 16, 31⟩ "IMG".data := by
  refine ⟨by decide, by decide, by decide⟩

/-- C6 amended: (i) a filename whose stem already starts with the
canonical basename for `dt` is kept unchanged up to extension
lower-casing; (ii) derivation is idempotent for every file that has a
(non-empty) extension: re-applying `filename_from_datetime` with the same
`dt` to its own output returns the output unchanged.  (For extensionless
names, idempotence fails — see the counterexample.) -/
theorem C6_amended :
    (∀ (dt : DateTime) (path : List Char),
      (basename_from_datetime dt).isPrefixOf (splitext (basename path)).1 = true →
      filename_from_datetime dt path =
        (splitext (basename path)).1 ++ lowerList (splitext (basename path)).2) ∧
    (∀ (dt : DateTime) (path : List Char),
      (splitext (basename path)).2 ≠ [] →
      filename_from_datetime dt (filename_from_datetime dt path) =
        filename_from_datetime dt path) := by
  constructor
  · intro dt path h
    exact filename_from_datetime_keep h
  · intro dt path hext
    have hshape := extOf_shape (basename path)
    rw [← splitext_basename_snd] at hshape
    rcases hshape with h0 | ⟨r, hr, hrdot⟩
    · exact absurd h0 hext
    obtain ⟨X, hX, hpre, hslash⟩ := filename_from_datetime_decomp dt path
    rw [hr, lowerList_cons_dot] at hX
    have hrsl : '/' ∉ r := by
      intro hmem
      have hm2 : ('/' : Char) ∈ (splitext (basename path)).2 := by
        rw [hr]
        exact List.mem_cons_of_mem _ hmem
      exact mem_splitext_snd_ne_slash hm2 rfl
    have hlr_dot : '.' ∉ lowerList r := not_mem_lowerList (by decide) hrdot
    have hlr_sl : '/' ∉ lowerList r := not_mem_lowerList (by decide) hrsl
    have hXdot : ∃ c ∈ X, c ≠ '.' := base_prefix_witness hpre
    have hXsl : '/' ∉ X := fun hm => hslash '/' hm rfl
    have hObn : basename (filename_from_datetime dt path) =
        filename_from_datetime dt path := by
      apply basename_no_slash
      rw [hX]
      intro hm
      rcases List.mem_append.mp hm with hm | hm
      · exact hXsl hm
      · rcases List.mem_cons.mp hm with heq | hm
        · exact absurd heq (by decide)
        · exact hlr_sl hm
    have hsplitO : splitext (filename_from_datetime dt path) =
        (X, '.' :: lowerList r) := by
      rw [hX]
      exact splitext_decomp hXsl hlr_sl hlr_dot hXdot
    have hkeep : (basename_from_datetime dt).isPrefixOf
        (splitext (basename (filename_from_datetime dt path))).1 = true := by
      rw [hObn, hsplitO]
      exact List.isPrefixOf_iff_prefix.mpr hpre
    have hfinal := filename_from_datetime_keep hkeep
    rw [hObn, hsplitO] at hfinal
    rw [hfinal]
    show X ++ lowerList ('.' :: lowerList r) = filename_from_datetime dt path
    rw [lowerList_cons_dot, lowerList_idem, ← hX]

/-- C6 amended, witness: an already-canonical `.jpg` name is kept
unchanged, and re-running the derivation on the output for
`IMG_0001.JPG` changes nothing. -/
theorem C6_amended_witness :
    filename_from_datetime ⟨2004, 5, 7, 20, 16, 31⟩
      "2004-05-07_20.16.31_IMG_0001.jpg".data =
      "2004-05-07_20.16.31_IMG_0001.jpg".data ∧
    filename_from_datetime ⟨2004, 5, 7, 20, 16, 31⟩
      (filename_from_datetime ⟨2004, 5, 7, 20, 16, 31⟩ "IMG_0001.JPG".data) =
      filename_from_datetime ⟨2004, 5, 7, 20, 16, 31⟩ "IMG_0001.JPG".data :=
  ⟨(C6_amended.1 ⟨2004, 5, 7, 20, 16, 31⟩ "2004-05-07_20.16.31_IMG_0001.jpg".data
      (by decide)).trans (by decide),
   C6_amended.2 ⟨2004, 5, 7, 20, 16, 31⟩ "IMG_0001.JPG".data (by decide)⟩

/-! ### Helper lemmas for the `.jpeg` normalization claim -/

theorem toDecimal_getLast_digit (n : Nat) :
    ∃ c, (toDecimal n).getLast? = some c ∧ isDigitChar c = true := by
  unfold toDecimal toDecimalAux
  by_cases h10 : n < 10
  · rw [if_pos h10]
    exact ⟨digitChar n, rfl, isDigitChar_digitChar (by omega)⟩
  · rw [if_neg h10]
    exact ⟨digitChar (n % 10), List.getLast?_concat _,
      isDigitChar_digitChar (show n % 10 ≤ 9 by omega)⟩

theorem pad2_getLast_digit (n : Nat) :
    ∃ c, (pad2 n).getLast? = some c ∧ isDigitChar c = true := by
  unfold pad2
  by_cases h10 : n < 10
  · rw [if_pos h10]
    obtain ⟨c, hc, hd⟩ := toDecimal_getLast_digit n
    refine ⟨c, ?_, hd⟩
    rw [show ('0' :: toDecimal n) = ['0'] ++ toDecimal n from rfl,
      List.getLast?_append_of_ne_nil _ (toDecimal_ne_nil n)]
    exact hc
  · rw [if_neg h10]
    exact toDecimal_getLast_digit n

theorem folder_ne_nil (dt : DateTime) : folder_from_datetime dt ≠ [] := by
  simp [folder_from_datetime]

theorem folder_getLast_digit (dt : DateTime) :
    ∃ c, (folder_from_datetime dt).getLast? = some c ∧ isDigitChar c = true := by
  obtain ⟨c, hc, hd⟩ := pad2_getLast_digit dt.month
  refine ⟨c, ?_, hd⟩
  have hsh : folder_from_datetime dt =
      (toDecimal dt.year ++ '/' :: (toDecimal dt.year ++ ['-'])) ++ pad2 dt.month := by
    simp [folder_from_datetime]
  rw [hsh, List.getLast?_append_of_ne_nil _ (pad2_ne_nil dt.month)]
  exact hc

theorem joinPath_getLast (a b : List Char) (hb : b ≠ []) :
    (joinPath a b).getLast? = b.getLast? ∧ joinPath a b ≠ [] := by
  unfold joinPath
  by_cases h1 : b.head? = some '/'
  · rw [if_pos h1]
    exact ⟨rfl, hb⟩
  · rw [if_neg h1]
    by_cases h2 : a = []
    · rw [if_pos h2]
      exact ⟨rfl, hb⟩
    · rw [if_neg h2]
      by_cases h3 : a.getLast? = some '/'
      · rw [if_pos h3]
        refine ⟨List.getLast?_append_of_ne_nil a hb, ?_⟩
        intro hcontra
        exact hb (List.append_eq_nil.mp hcontra).2
      · rw [if_neg h3]
        constructor
        · rw [show a ++ '/' :: b = (a ++ ['/']) ++ b from by simp,
            List.getLast?_append_of_ne_nil _ hb]
        · simp

theorem dedupLoop_is_candidate (fs : List (List Char)) (d fn e : List Char) :
    ∀ fuel i, ∃ j, dedupLoop fs d fn e i fuel = dedupCandidate d fn e j := by
  intro fuel
  induction fuel with
  | zero => intro i; exact ⟨i, rfl⟩
  | succ fuel ih =>
    intro i
    unfold dedupLoop
    by_cases h : dedupCandidate d fn e i ∈ fs
    · rw [if_pos h]
      exact ih (i + 1)
    · rw [if_neg h]
      exact ⟨i, rfl⟩

theorem resolve_duplicate_snd_suffix (fs : List (List Char)) (p : List Char) :
    (splitext (basename p)).2 <:+ resolve_duplicate fs p := by
  simp only [resolve_duplicate]
  by_cases h : p ∈ fs
  · rw [if_pos h]
    obtain ⟨j, hj⟩ := dedupLoop_is_candidate fs (dirname p)
      (splitext (basename p)).1 (splitext (basename p)).2 (fs.length + 1) 1
    rw [hj]
    unfold dedupCandidate
    refine List.IsSuffix.trans ?_ (joinPath_suffix _ _)
    exact ⟨(splitext (basename p)).1 ++ '-' :: toDecimal j, by simp⟩
  · rw [if_neg h]
    rw [splitext_basename_snd]
    exact (extOf_suffix (basename p)).trans (basename_suffix p)

/-- C9: for every input file whose extension lower-cases to `.jpeg`
(so `.jpeg`, `.JPEG`, `.JpEg`, …), every resolved timestamp, every root
folder and every set of existing destination paths, the final destination
path produced by `dest_path` ends in `.jpg` and never in `.jpeg`: the
normalization survives collision-resolution suffixing. -/
theorem C9_jpeg_normalized (fs : List (List Char)) (root : List Char)
    (dt : DateTime) (path : List Char)
    (h : lowerList (splitext (basename path)).2 = ".jpeg".data) :
    ".jpg".data <:+ dest_path fs root dt path ∧
    ¬ (".jpeg".data <:+ dest_path fs root dt path) := by
  obtain ⟨X, hX, hpre, hslash⟩ := filename_from_datetime_decomp dt path
  rw [h] at hX
  have hXsl : '/' ∉ X := fun hm => hslash '/' hm rfl
  have hXdot : ∃ c ∈ X, c ≠ '.' := base_prefix_witness hpre
  obtain ⟨c0, rest0, hb0, hd0⟩ := base_head_digit dt
  obtain ⟨t0, ht0⟩ := hpre
  have hXeq : X = c0 :: (rest0 ++ t0) := by
    rw [← ht0, hb0]
    simp
  obtain ⟨cl, hcl, hcld⟩ := folder_getLast_digit dt
  have hJ := joinPath_getLast root (folder_from_datetime dt) (folder_ne_nil dt)
  have hJlast : (joinPath root (folder_from_datetime dt)).getLast? ≠ some '/' := by
    rw [hJ.1, hcl]
    intro hcontra
    injection hcontra with hc
    exact isDigitChar_ne hcld (by decide) hc
  have hfhead : (filename_from_datetime dt path).head? ≠ some '/' := by
    rw [hX, hXeq]
    intro hcontra
    simp at hcontra
    exact isDigitChar_ne hd0 (by decide) hcontra
  have hp1 : path_from_datetime root dt path =
      (joinPath root (folder_from_datetime dt) ++ '/' :: X) ++ ".jpeg".data := by
    unfold path_from_datetime
    rw [joinPath_eq hJ.2 hJlast hfhead, hX]
    simp
  have h5 : (".jpeg".data).length = 5 := by decide
  have hcond : ".jpeg".data <:+ path_from_datetime root dt path := by
    rw [hp1]
    exact List.suffix_append _ _
  have hlen : (path_from_datetime root dt path).length - 4 =
      (joinPath root (folder_from_datetime dt) ++ '/' :: X).length + 1 := by
    rw [hp1, List.length_append, h5]
    omega
  have htake : (path_from_datetime root dt path).take
      ((path_from_datetime root dt path).length - 4) ++ "jpg".data =
      (joinPath root (folder_from_datetime dt) ++ '/' :: X) ++ ".jpg".data := by
    rw [hlen, hp1, List.take_append_eq_append_take,
      List.take_of_length_le (by omega),
      show (joinPath root (folder_from_datetime dt) ++ '/' :: X).length + 1 -
        (joinPath root (folder_from_datetime dt) ++ '/' :: X).length = 1 by omega,
      show (".jpeg".data).take 1 = ['.'] from by decide,
      show ".jpg".data = '.' :: "jpg".data from rfl]
    simp
  have hdest : dest_path fs root dt path =
      resolve_duplicate fs
        ((joinPath root (folder_from_datetime dt) ++ '/' :: X) ++ ".jpg".data) := by
    simp only [dest_path]
    rw [if_pos hcond, htake]
  have hbn2 : basename ((joinPath root (folder_from_datetime dt) ++ '/' :: X) ++
      ".jpg".data) = X ++ ".jpg".data := by
    rw [show (joinPath root (folder_from_datetime dt) ++ '/' :: X) ++ ".jpg".data =
      joinPath root (folder_from_datetime dt) ++ '/' :: (X ++ ".jpg".data) from by simp]
    apply basename_append
    intro hm
    rcases List.mem_append.mp hm with hm | hm
    · exact hXsl hm
    · exact absurd hm (by decide)
  have hsplit2 : splitext (X ++ ".jpg".data) = (X, ".jpg".data) := by
    rw [show ".jpg".data = '.' :: "jpg".data from rfl]
    exact splitext_decomp hXsl (by decide) (by decide) hXdot
  have hsuf : ".jpg".data <:+ dest_path fs root dt path := by
    rw [hdest]
    have hs := resolve_duplicate_snd_suffix fs
      ((joinPath root (folder_from_datetime dt) ++ '/' :: X) ++ ".jpg".data)
    rw [hbn2, hsplit2] at hs
    exact hs
  refine ⟨hsuf, ?_⟩
  intro hjpeg
  have hcontra := suffix_of_suffix_le hsuf hjpeg (by decide)
  exact absurd hcontra (by decide)

/-- C9, witness: `/src/a.JPEG` with timestamp 2004-05-07T20:16:31 into an
empty `/photo` tree. -/
theorem C9_jpeg_normalized_witness :
    ".jpg".data <:+ dest_path [] "/photo".data ⟨2004, 5, 7, 20, 16, 31⟩
      "/src/a.JPEG".data ∧
    ¬ (".jpeg".data <:+ dest_path [] "/photo".data ⟨2004, 5, 7, 20, 16, 31⟩
      "/src/a.JPEG".data) :=
  C9_jpeg_normalized [] "/photo".data ⟨2004, 5, 7, 20, 16, 31⟩
    "/src/a.JPEG".data (by decide)
